import Mathlib

/-!
Verification of the MPM pitch detector (`mpm.py`).

Shallow embedding of the McLeod Pitch Method implementation:
* `normalized_square_difference` — the NSDF engine (FFT-based autocorrelation,
  prefix-sum energy terms, epsilon guard, normalisation);
* `peak_picking` — threshold / strict-local-maximum peak selection;
* `parabolic_interpolation` — sub-sample peak refinement;
* `mpm_pitch_detection` — the single-frame pitch detector;
* `detect_pitch_mpm` — the sliding-window frame tracker;
* `get_dominant_pitch_mpm` — the clarity-weighted dominant-pitch aggregator.

Real-valued audio samples are modelled as `ℝ`; numpy arrays as `List ℝ`
(or functions out of `ZMod N` for the FFT buffer of size `N`).  The numpy
FFT pipeline `irfft(rfft(x, n=fftSize) * conj(rfft(x, n=fftSize)))[:n]` is
modelled by the discrete Fourier transform on `ZMod fftSize` with numpy's
kernel `exp (-2πi·jk/N)` (the standard additive character at `-(j*k)`).
-/

namespace MPM

/-! ## Discrete Fourier transform, as computed by `np.fft`

numpy's forward DFT is `A_k = Σ_j x_j · exp (-2πi·jk/N)` and its inverse is
`a_j = (1/N) Σ_k A_k · exp (2πi·jk/N)`.  `ZMod.stdAddChar` sends `m : ZMod N`
to `exp (2πi·m/N)`, so the kernels are `stdAddChar (-(j*k))` and
`stdAddChar (j*k)`. -/

/-- numpy's forward DFT of a length-`N` complex buffer. -/
noncomputable def npDFT {N : ℕ} [NeZero N] (x : ZMod N → ℂ) (k : ZMod N) : ℂ :=
  ∑ j : ZMod N, x j * ZMod.stdAddChar (-(j * k))

/-- numpy's inverse DFT of a length-`N` complex buffer. -/
noncomputable def npIDFT {N : ℕ} [NeZero N] (X : ZMod N → ℂ) (j : ZMod N) : ℂ :=
  (N : ℂ)⁻¹ * ∑ k : ZMod N, X k * ZMod.stdAddChar (j * k)

lemma sum_stdAddChar_mul {N : ℕ} [NeZero N] (t : ZMod N) :
    ∑ k : ZMod N, ZMod.stdAddChar (t * k) = if t = 0 then (N : ℂ) else 0 := by
  split_ifs with h
  · subst h
    simp [ZMod.card]
  · have h1 := AddChar.sum_eq_zero_of_ne_one (ZMod.isPrimitive_stdAddChar N h)
    simpa [AddChar.mulShift_apply] using h1

lemma conj_stdAddChar {N : ℕ} [NeZero N] (m : ZMod N) :
    (starRingEnd ℂ) (ZMod.stdAddChar m) = ZMod.stdAddChar (-m) := by
  rw [ZMod.stdAddChar_apply, ZMod.stdAddChar_apply, ← Circle.coe_inv_eq_conj,
    ← AddChar.map_neg_eq_inv]

/-- Fourier correlation theorem: the inverse DFT of `(𝓕x)·conj (𝓕x)` is the
circular autocorrelation of `x`. -/
theorem npIDFT_mul_conj {N : ℕ} [NeZero N] (x : ZMod N → ℂ) (j : ZMod N) :
    npIDFT (fun k => npDFT x k * (starRingEnd ℂ) (npDFT x k)) j
      = ∑ b : ZMod N, (starRingEnd ℂ) (x b) * x (b + j) := by
  have hN : (N : ℂ) ≠ 0 := Nat.cast_ne_zero.mpr (NeZero.ne N)
  unfold npIDFT npDFT
  have step1 : ∀ k : ZMod N,
      (∑ a : ZMod N, x a * ZMod.stdAddChar (-(a * k))) *
        (starRingEnd ℂ) (∑ b : ZMod N, x b * ZMod.stdAddChar (-(b * k))) *
          ZMod.stdAddChar (j * k)
      = ∑ a : ZMod N, ∑ b : ZMod N,
          x a * (starRingEnd ℂ) (x b) *
            ZMod.stdAddChar ((b + j - a) * k) := by
    intro k
    rw [map_sum, Finset.sum_mul_sum, Finset.sum_mul]
    refine Finset.sum_congr rfl fun a _ => ?_
    rw [Finset.sum_mul]
    refine Finset.sum_congr rfl fun b _ => ?_
    rw [map_mul, conj_stdAddChar]
    have : ZMod.stdAddChar (-(a * k)) * ZMod.stdAddChar (-(-(b * k))) *
        ZMod.stdAddChar (j * k) = ZMod.stdAddChar ((b + j - a) * k) := by
      rw [← AddChar.map_add_eq_mul, ← AddChar.map_add_eq_mul]
      ring_nf
    calc x a * ZMod.stdAddChar (-(a * k)) *
          ((starRingEnd ℂ) (x b) * ZMod.stdAddChar (-(-(b * k)))) *
            ZMod.stdAddChar (j * k)
        = x a * (starRingEnd ℂ) (x b) *
            (ZMod.stdAddChar (-(a * k)) * ZMod.stdAddChar (-(-(b * k))) *
              ZMod.stdAddChar (j * k)) := by ring
      _ = x a * (starRingEnd ℂ) (x b) * ZMod.stdAddChar ((b + j - a) * k) := by
          rw [this]
  calc (N : ℂ)⁻¹ * ∑ k : ZMod N,
        (∑ a : ZMod N, x a * ZMod.stdAddChar (-(a * k))) *
          (starRingEnd ℂ) (∑ b : ZMod N, x b * ZMod.stdAddChar (-(b * k))) *
            ZMod.stdAddChar (j * k)
      = (N : ℂ)⁻¹ * ∑ k : ZMod N, ∑ a : ZMod N, ∑ b : ZMod N,
          x a * (starRingEnd ℂ) (x b) * ZMod.stdAddChar ((b + j - a) * k) := by
        rw [Finset.sum_congr rfl fun k _ => step1 k]
    _ = (N : ℂ)⁻¹ * ∑ a : ZMod N, ∑ b : ZMod N,
          x a * (starRingEnd ℂ) (x b) *
            ∑ k : ZMod N, ZMod.stdAddChar ((b + j - a) * k) := by
        rw [Finset.sum_comm]
        congr 1
        refine Finset.sum_congr rfl fun a _ => ?_
        rw [Finset.sum_comm]
        refine Finset.sum_congr rfl fun b _ => ?_
        rw [Finset.mul_sum]
    _ = (N : ℂ)⁻¹ * ∑ a : ZMod N, ∑ b : ZMod N,
          x a * (starRingEnd ℂ) (x b) * (if b + j - a = 0 then (N : ℂ) else 0) := by
        refine congrArg _ (Finset.sum_congr rfl fun a _ => Finset.sum_congr rfl fun b _ => ?_)
        rw [sum_stdAddChar_mul]
    _ = (N : ℂ)⁻¹ * ∑ b : ZMod N, ∑ a : ZMod N,
          (if a = b + j then x a * (starRingEnd ℂ) (x b) * (N : ℂ) else 0) := by
        rw [Finset.sum_comm]
        refine congrArg _ (Finset.sum_congr rfl fun b _ => Finset.sum_congr rfl fun a _ => ?_)
        have hiff : b + j - a = 0 ↔ a = b + j := by rw [sub_eq_zero, eq_comm]
        by_cases h : a = b + j
        · rw [if_pos h, if_pos (hiff.mpr h)]
        · rw [if_neg (fun hc => h (hiff.mp hc)), if_neg h, mul_zero]
    _ = (N : ℂ)⁻¹ * ∑ b : ZMod N, x (b + j) * (starRingEnd ℂ) (x b) * (N : ℂ) := by
        refine congrArg _ (Finset.sum_congr rfl fun b _ => ?_)
        rw [Finset.sum_ite_eq' Finset.univ (b + j)
          (fun a => x a * (starRingEnd ℂ) (x b) * (N : ℂ))]
        simp
    _ = ∑ b : ZMod N, (starRingEnd ℂ) (x b) * x (b + j) := by
        rw [Finset.mul_sum]
        refine Finset.sum_congr rfl fun b _ => ?_
        field_simp
        ring

/-! ## The NSDF engine (`normalized_square_difference`) -/

/-- The transform size `fft_size = 2 ** int(np.ceil(np.log2(2 * n)))`: the next power of two
that is `≥ 2n` (`Nat.clog 2` is the ceiling of the base-2 logarithm). -/
def fft_size (n : ℕ) : ℕ := 2 ^ Nat.clog 2 (2 * n)

instance (n : ℕ) : NeZero (fft_size n) := ⟨(Nat.pos_pow_of_pos _ (by omega)).ne'⟩

lemma two_mul_le_fft_size (n : ℕ) : 2 * n ≤ fft_size n := Nat.le_pow_clog one_lt_two _

/-- The zero-padded FFT input buffer: `np.fft.rfft(audio_buffer, n=fft_size)`
reads the `n` samples and pads with zeros up to `fft_size`. -/
noncomputable def padded (xs : List ℝ) : ZMod (fft_size xs.length) → ℂ :=
  fun j => if j.val < xs.length then ((xs.getD j.val 0 : ℝ) : ℂ) else 0

/-- The value of `np.fft.irfft(fft * np.conj(fft))[:n]` at lag `tau`: the FFT-based
autocorrelation of the frame (the real part of the inverse transform of the
power spectrum of the zero-padded frame). -/
noncomputable def autocorrFFT (xs : List ℝ) (tau : ℕ) : ℝ :=
  (npIDFT (fun k => npDFT (padded xs) k * (starRingEnd ℂ) (npDFT (padded xs) k))
    ((tau : ℕ) : ZMod (fft_size xs.length))).re

/-- The direct (`O(n²)`) autocorrelation `r(tau) = Σ_{j=0}^{n-1-tau} x[j]·x[j+tau]`,
as written in the specification. -/
noncomputable def autocorrDirect (xs : List ℝ) (tau : ℕ) : ℝ :=
  ∑ j ∈ Finset.range (xs.length - tau), xs.getD j 0 * xs.getD (j + tau) 0

/-- The FFT-based autocorrelation agrees exactly (over `ℝ`) with the direct
`O(n²)` summation at every lag `tau < n`, because the buffer is zero-padded to
a transform size `≥ 2n` so no circular wrap-around touches the first `n` lags. -/
theorem autocorrFFT_eq_autocorrDirect (xs : List ℝ) (tau : ℕ) (htau : tau < xs.length) :
    autocorrFFT xs tau = autocorrDirect xs tau := by
  set n := xs.length with hn
  set N := fft_size n with hN
  have h2n : 2 * n ≤ N := two_mul_le_fft_size n
  have hnN : n ≤ N := le_trans (Nat.le_mul_of_pos_left n two_pos) h2n
  have htauN : tau < N := lt_of_lt_of_le htau (le_trans (Nat.le_mul_of_pos_left n two_pos) h2n)
  rw [autocorrFFT, npIDFT_mul_conj]
  -- each summand is a real number; compute the sum as a real sum over `Fin N`
  have key : ∑ b : ZMod N, (starRingEnd ℂ) (padded xs b) * padded xs (b + (tau : ZMod N))
      = ((autocorrDirect xs tau : ℝ) : ℂ) := by
    have hval : ∀ b : ZMod N, b.val < n →
        (b + (tau : ZMod N)).val = b.val + tau := by
      intro b hb
      rw [ZMod.val_add, ZMod.val_natCast, Nat.mod_eq_of_lt htauN, Nat.mod_eq_of_lt]
      omega
    have hterm : ∀ b : ZMod N,
        (starRingEnd ℂ) (padded xs b) * padded xs (b + (tau : ZMod N))
          = ((if b.val + tau < n then xs.getD b.val 0 * xs.getD (b.val + tau) 0 else 0 : ℝ) : ℂ)
            * (if b.val < n then 1 else 0) := by
      intro b
      by_cases hb : b.val < n
      · rw [if_pos hb]
        unfold padded
        rw [if_pos hb, hval b hb, Complex.conj_ofReal]
        by_cases hbt : b.val + tau < n
        · rw [if_pos hbt, if_pos hbt]
          push_cast
          ring
        · rw [if_neg hbt, if_neg hbt]
          push_cast
          ring
      · rw [if_neg hb]
        unfold padded
        rw [if_neg hb]
        simp
    rw [Finset.sum_congr rfl fun b _ => hterm b]
    -- transport the sum along `val : ZMod N ≃ range N`
    have hbij : ∑ b : ZMod N,
        ((if b.val + tau < n then xs.getD b.val 0 * xs.getD (b.val + tau) 0 else 0 : ℝ) : ℂ)
          * (if b.val < n then 1 else 0)
        = ∑ v ∈ Finset.range N,
        ((if v + tau < n then xs.getD v 0 * xs.getD (v + tau) 0 else 0 : ℝ) : ℂ)
          * (if v < n then 1 else 0) := by
      refine Finset.sum_nbij' (fun b => b.val) (fun v => (v : ZMod N)) ?_ ?_ ?_ ?_ ?_
      · intro b _
        exact Finset.mem_range.mpr (ZMod.val_lt b)
      · intro v _
        exact Finset.mem_univ _
      · intro b _
        exact ZMod.natCast_zmod_val b
      · intro v hv
        exact ZMod.val_cast_of_lt (Finset.mem_range.mp hv)
      · intro b _
        rfl
    rw [hbij]
    have hsub : ∑ v ∈ Finset.range N,
        ((if v + tau < n then xs.getD v 0 * xs.getD (v + tau) 0 else 0 : ℝ) : ℂ)
          * (if v < n then 1 else 0)
        = ∑ v ∈ Finset.range n,
        ((if v + tau < n then xs.getD v 0 * xs.getD (v + tau) 0 else 0 : ℝ) : ℂ) := by
      rw [← Finset.sum_subset (Finset.range_subset.mpr hnN)
        (fun v _ hv => by rw [if_neg (fun h => hv (Finset.mem_range.mpr h)), mul_zero])]
      exact Finset.sum_congr rfl fun v hv => by
        rw [if_pos (Finset.mem_range.mp hv), mul_one]
    rw [hsub]
    have hre : autocorrDirect xs tau
        = ∑ v ∈ Finset.range n,
            (if v + tau < n then xs.getD v 0 * xs.getD (v + tau) 0 else 0 : ℝ) :=
      calc autocorrDirect xs tau
          = ∑ v ∈ Finset.range (n - tau),
              (if v + tau < n then xs.getD v 0 * xs.getD (v + tau) 0 else 0 : ℝ) :=
            Finset.sum_congr rfl fun v hv =>
              (if_pos (by have := Finset.mem_range.mp hv; omega)).symm
        _ = ∑ v ∈ Finset.range n,
              (if v + tau < n then xs.getD v 0 * xs.getD (v + tau) 0 else 0 : ℝ) :=
            Finset.sum_subset (Finset.range_subset.mpr (Nat.sub_le n tau))
              (fun v _ hv => if_neg (fun h => hv (Finset.mem_range.mpr (by omega))))
    rw [hre, Complex.ofReal_sum]
  rw [key, Complex.ofReal_re]

/-- Prefix sums of squared samples:
`cumsum_sq = np.concatenate(([0], np.cumsum(audio_buffer ** 2)))`, read at
index `k`, is `Σ_{j<k} x[j]²`. -/
noncomputable def cumsum_sq (xs : List ℝ) (k : ℕ) : ℝ :=
  ∑ j ∈ Finset.range k, xs.getD j 0 ^ 2

/-- The array `m[tau] = cumsum_sq[n - tau] + (cumsum_sq[n] - cumsum_sq[tau])`, the
energy term of the NSDF, exactly as the code computes it. -/
noncomputable def m (xs : List ℝ) (tau : ℕ) : ℝ :=
  cumsum_sq xs (xs.length - tau) + (cumsum_sq xs xs.length - cumsum_sq xs tau)

/-- The NSDF engine `normalized_square_difference`: FFT autocorrelation,
epsilon guard `m[m == 0] = 1e-10`, and `nsdf = 2 * autocorr / m`. -/
noncomputable def normalized_square_difference (xs : List ℝ) : List ℝ :=
  (List.range xs.length).map fun tau =>
    2 * autocorrFFT xs tau / (if m xs tau = 0 then 1 / 10 ^ 10 else m xs tau)

/-- The energy `m(tau)` as the specification words it: the sum of squares of
`x[0..n-1-tau]` plus the sum of squares of `x[tau..n-1]`. -/
noncomputable def mSpec (xs : List ℝ) (tau : ℕ) : ℝ :=
  (∑ j ∈ Finset.range (xs.length - tau), xs.getD j 0 ^ 2)
    + ∑ j ∈ Finset.Ico tau xs.length, xs.getD j 0 ^ 2

lemma m_eq_mSpec (xs : List ℝ) (tau : ℕ) (h : tau ≤ xs.length) :
    m xs tau = mSpec xs tau := by
  unfold m mSpec cumsum_sq
  rw [Finset.sum_Ico_eq_sub _ h]

lemma mSpec_nonneg (xs : List ℝ) (tau : ℕ) : 0 ≤ mSpec xs tau :=
  add_nonneg (Finset.sum_nonneg fun _ _ => sq_nonneg _)
    (Finset.sum_nonneg fun _ _ => sq_nonneg _)

lemma getD_map_range {α : Type*} (n : ℕ) (f : ℕ → α) (i : ℕ) (d : α) (h : i < n) :
    ((List.range n).map f).getD i d = f i := by
  rw [List.getD_eq_getElem?_getD, List.getElem?_map, List.getElem?_range h]
  rfl

/-- The NSDF via the direct `O(n²)` autocorrelation summation (the reference
method named by the specification's equivalence requirement). -/
noncomputable def nsdf_direct (xs : List ℝ) : List ℝ :=
  (List.range xs.length).map fun tau =>
    2 * autocorrDirect xs tau / (if m xs tau = 0 then 1 / 10 ^ 10 else m xs tau)

/-- C1: for a frame of length `n ≥ 2` the NSDF engine returns exactly `n`
values, with `nsdf[tau] = 2·r(tau)/m(tau)` where `r` is the direct
autocorrelation sum and `m` the claimed two-window energy; a lag with
`m(tau) = 0` divides by the positive epsilon `1e-10` instead, so the divisor
is always positive (never zero). -/
theorem normalized_square_difference_spec (xs : List ℝ) (h2 : 2 ≤ xs.length) :
    (normalized_square_difference xs).length = xs.length ∧
    ∀ tau, tau < xs.length →
      0 < (if mSpec xs tau = 0 then (1 / 10 ^ 10 : ℝ) else mSpec xs tau) ∧
      (normalized_square_difference xs).getD tau 0
        = 2 * autocorrDirect xs tau /
            (if mSpec xs tau = 0 then 1 / 10 ^ 10 else mSpec xs tau) := by
  constructor
  · simp [normalized_square_difference]
  · intro tau htau
    constructor
    · split_ifs with h0
      · norm_num
      · exact lt_of_le_of_ne (mSpec_nonneg xs tau) (Ne.symm h0)
    · have hget : (normalized_square_difference xs).getD tau 0
          = 2 * autocorrFFT xs tau / (if m xs tau = 0 then 1 / 10 ^ 10 else m xs tau) := by
        unfold normalized_square_difference
        exact getD_map_range xs.length _ tau 0 htau
      rw [hget, autocorrFFT_eq_autocorrDirect xs tau htau, m_eq_mSpec xs tau (le_of_lt htau)]

theorem normalized_square_difference_spec_witness :
    2 ≤ List.length [(1 : ℝ), 0] ∧
      (normalized_square_difference [(1 : ℝ), 0]).length = List.length [(1 : ℝ), 0] :=
  ⟨by decide, (normalized_square_difference_spec [(1 : ℝ), 0] (by decide)).1⟩

/-- C2: the transform-domain autocorrelation (pad to a power of two `≥ 2n`,
transform, multiply by the conjugate, inverse-transform, keep the first `n`
real values) coincides exactly over `ℝ` with the direct `O(n²)` sum at every
lag, and hence the NSDF arrays computed by the two methods are equal. -/
theorem autocorr_methods_agree (xs : List ℝ) :
    (∀ tau, tau < xs.length → autocorrFFT xs tau = autocorrDirect xs tau) ∧
    normalized_square_difference xs = nsdf_direct xs := by
  refine ⟨fun tau h => autocorrFFT_eq_autocorrDirect xs tau h, ?_⟩
  unfold normalized_square_difference nsdf_direct
  refine List.map_congr_left fun tau htau => ?_
  rw [autocorrFFT_eq_autocorrDirect xs tau (List.mem_range.mp htau)]

theorem autocorr_methods_agree_witness :
    autocorrFFT [(1 : ℝ), 0] 0 = autocorrDirect [(1 : ℝ), 0] 0 :=
  (autocorr_methods_agree [(1 : ℝ), 0]).1 0 (by decide)

/-! ## Peak picking (`peak_picking`) -/

/-- The peak selector `peak_picking`: scan `i = 1 .. len(nsdf) - 2` (Python
`range(1, len(nsdf) - 1)`) and keep `(i, nsdf[i])` whenever
`nsdf[i] > threshold and nsdf[i] > 0` and
`nsdf[i] > nsdf[i-1] and nsdf[i] > nsdf[i+1]`. -/
def peak_picking {α : Type*} [LinearOrderedField α] (nsdf : List α) (threshold : α) :
    List (ℕ × α) :=
  (List.range' 1 (nsdf.length - 2)).filterMap fun i =>
    if threshold < nsdf.getD i 0 ∧ 0 < nsdf.getD i 0 ∧
        nsdf.getD (i - 1) 0 < nsdf.getD i 0 ∧ nsdf.getD (i + 1) 0 < nsdf.getD i 0 then
      some (i, nsdf.getD i 0)
    else none

/-- C3: the Peak Selector returns, in strictly increasing lag order, exactly
the interior indices `i ∈ [1, n-2]` that exceed the threshold, are positive
and are strict local maxima, each paired with its NSDF value; lag `0` and the
last index never appear, and the empty list is the (valid) result when no
index qualifies. -/
lemma mem_peak_picking {α : Type*} [LinearOrderedField α]
    (nsdf : List α) (threshold : α) (i : ℕ) (v : α) :
    (i, v) ∈ peak_picking nsdf threshold ↔
      (1 ≤ i ∧ i + 1 < nsdf.length ∧ v = nsdf.getD i 0 ∧
        threshold < v ∧ 0 < v ∧
        nsdf.getD (i - 1) 0 < v ∧ nsdf.getD (i + 1) 0 < v) := by
  unfold peak_picking
  rw [List.mem_filterMap]
  constructor
  · rintro ⟨a, ha, hfa⟩
    obtain ⟨io, hio, rfl⟩ := List.mem_range'.mp ha
    rw [Option.ite_none_right_eq_some] at hfa
    obtain ⟨hc, hpair⟩ := hfa
    cases hpair
    exact ⟨by omega, by omega, rfl, hc.1, hc.2.1, hc.2.2.1, hc.2.2.2⟩
  · rintro ⟨h1, hlt, rfl, hth, hpos, hl, hr⟩
    refine ⟨i, List.mem_range'.mpr ⟨i - 1, by omega, by omega⟩, ?_⟩
    rw [if_pos ⟨hth, hpos, hl, hr⟩]

theorem peak_picking_spec {α : Type*} [LinearOrderedField α]
    (nsdf : List α) (threshold : α) (h3 : 3 ≤ nsdf.length) :
    (∀ i v, (i, v) ∈ peak_picking nsdf threshold ↔
      (1 ≤ i ∧ i + 1 < nsdf.length ∧ v = nsdf.getD i 0 ∧
        threshold < v ∧ 0 < v ∧
        nsdf.getD (i - 1) 0 < v ∧ nsdf.getD (i + 1) 0 < v)) ∧
    (peak_picking nsdf threshold).Pairwise (fun p q => p.1 < q.1) ∧
    (∀ p ∈ peak_picking nsdf threshold, p.1 ≠ 0 ∧ p.1 ≠ nsdf.length - 1) ∧
    ((∀ i, 1 ≤ i → i + 1 < nsdf.length →
        ¬(threshold < nsdf.getD i 0 ∧ 0 < nsdf.getD i 0 ∧
          nsdf.getD (i - 1) 0 < nsdf.getD i 0 ∧ nsdf.getD (i + 1) 0 < nsdf.getD i 0)) →
      peak_picking nsdf threshold = []) := by
  have hmem := mem_peak_picking nsdf threshold
  refine ⟨hmem, ?_, ?_, ?_⟩
  · unfold peak_picking
    refine List.Pairwise.filterMap _ (fun a a' hlt b hb b' hb' => ?_)
      (List.pairwise_lt_range' 1 _)
    have ha : b.1 = a := by
      split_ifs at hb with hc
      · exact (congrArg Prod.fst (Option.mem_some_iff.mp hb)).symm
      · exact absurd hb (by simp)
    have ha' : b'.1 = a' := by
      split_ifs at hb' with hc
      · exact (congrArg Prod.fst (Option.mem_some_iff.mp hb')).symm
      · exact absurd hb' (by simp)
    rw [ha, ha']
    exact hlt
  · rintro ⟨i, v⟩ hp
    have h := (hmem i v).mp hp
    exact ⟨by omega, by omega⟩
  · intro hnone
    by_contra hne
    obtain ⟨⟨i, v⟩, hp⟩ := List.exists_mem_of_ne_nil _ hne
    obtain ⟨h1, hlt, hv, hth, hpos, hl, hr⟩ := (hmem i v).mp hp
    subst hv
    exact hnone i h1 hlt ⟨hth, hpos, hl, hr⟩

theorem peak_picking_spec_witness :
    3 ≤ List.length [(0 : ℚ), 1, 0] ∧
      ((1, (1 : ℚ)) ∈ peak_picking [(0 : ℚ), 1, 0] (1 / 2) ↔
        (1 ≤ 1 ∧ 1 + 1 < List.length [(0 : ℚ), 1, 0] ∧
          (1 : ℚ) = [(0 : ℚ), 1, 0].getD 1 0 ∧
          (1 : ℚ) / 2 < 1 ∧ (0 : ℚ) < 1 ∧
          [(0 : ℚ), 1, 0].getD (1 - 1) 0 < 1 ∧ [(0 : ℚ), 1, 0].getD (1 + 1) 0 < 1)) :=
  ⟨by decide, (peak_picking_spec [(0 : ℚ), 1, 0] (1 / 2) (by decide)).1 1 1⟩

/-! ## Sub-sample refinement (`parabolic_interpolation`) -/

/-- The refiner `parabolic_interpolation`: boundary indices are returned unchanged; a
near-degenerate parabola (`|denom| < 1e-10`) returns the index unchanged;
otherwise the interpolated peak `i + 0.5·(α − γ)/denom` is returned. -/
def parabolic_interpolation {α : Type*} [LinearOrderedField α]
    (nsdf : List α) (peak_index : ℤ) : α :=
  if peak_index ≤ 0 ∨ (nsdf.length : ℤ) - 1 ≤ peak_index then (peak_index : α)
  else
    let alpha := nsdf.getD (peak_index - 1).toNat 0
    let beta := nsdf.getD peak_index.toNat 0
    let gamma := nsdf.getD (peak_index + 1).toNat 0
    let denominator := alpha - 2 * beta + gamma
    if |denominator| < 1 / 10 ^ 10 then (peak_index : α)
    else (peak_index : α) + 1 / 2 * (alpha - gamma) / denominator

/-- C5: parabolic refinement returns `i` unchanged at a boundary
(`i ≤ 0` or `i ≥ n - 1`) and when `|denom| < 1e-10` for
`denom = nsdf[i-1] - 2·nsdf[i] + nsdf[i+1]`; otherwise it returns
`i + 0.5·(nsdf[i-1] - nsdf[i+1])/denom`. -/
theorem parabolic_interpolation_spec {α : Type*} [LinearOrderedField α]
    (nsdf : List α) (i : ℤ) :
    (i ≤ 0 ∨ (nsdf.length : ℤ) - 1 ≤ i → parabolic_interpolation nsdf i = (i : α)) ∧
    (0 < i → i < (nsdf.length : ℤ) - 1 →
      (|nsdf.getD (i - 1).toNat 0 - 2 * nsdf.getD i.toNat 0 + nsdf.getD (i + 1).toNat 0|
          < 1 / 10 ^ 10 →
        parabolic_interpolation nsdf i = (i : α)) ∧
      (1 / 10 ^ 10 ≤
          |nsdf.getD (i - 1).toNat 0 - 2 * nsdf.getD i.toNat 0 + nsdf.getD (i + 1).toNat 0| →
        parabolic_interpolation nsdf i
          = (i : α) + 1 / 2 * (nsdf.getD (i - 1).toNat 0 - nsdf.getD (i + 1).toNat 0) /
              (nsdf.getD (i - 1).toNat 0 - 2 * nsdf.getD i.toNat 0 +
                nsdf.getD (i + 1).toNat 0))) := by
  constructor
  · intro h
    unfold parabolic_interpolation
    rw [if_pos h]
  · intro h0 hn
    have hcond : ¬(i ≤ 0 ∨ (nsdf.length : ℤ) - 1 ≤ i) := by omega
    constructor
    · intro hdeg
      unfold parabolic_interpolation
      rw [if_neg hcond]
      simp only []
      rw [if_pos hdeg]
    · intro hnondeg
      unfold parabolic_interpolation
      rw [if_neg hcond]
      simp only []
      rw [if_neg (not_lt.mpr hnondeg)]

theorem parabolic_interpolation_spec_witness :
    ((0 : ℤ) ≤ 0 ∨ (List.length [(0 : ℚ), 1, 0] : ℤ) - 1 ≤ 0) ∧
      parabolic_interpolation [(0 : ℚ), 1, 0] 0 = ((0 : ℤ) : ℚ) :=
  ⟨Or.inl le_rfl, (parabolic_interpolation_spec [(0 : ℚ), 1, 0] 0).1 (Or.inl le_rfl)⟩

/-! ## Fundamental selection (`mpm_pitch_detection`, step 3) -/

/-- Python's `max(peaks, key=lambda p: p[1])` over `p :: ps`: fold keeping
the current maximum, replacing it only on a strictly larger clarity, so ties
resolve to the earliest (lowest-lag) element. -/
def max_by_clarity {α : Type*} [LinearOrderedField α] (p : ℕ × α) (ps : List (ℕ × α)) :
    ℕ × α :=
  ps.foldl (fun acc q => if acc.2 < q.2 then q else acc) p

/-- Steps at lines 180–190 of `mpm_pitch_detection`: if the first peak's
clarity reaches the strong-clarity constant `0.8`, take it; otherwise take
the maximum-clarity peak. -/
def select_fundamental {α : Type*} [LinearOrderedField α] (p : ℕ × α)
    (ps : List (ℕ × α)) : ℕ × α :=
  if (8 : α) / 10 ≤ p.2 then p else max_by_clarity p ps

lemma max_by_clarity_first_max {α : Type*} [LinearOrderedField α]
    (p : ℕ × α) (ps : List (ℕ × α)) :
    max_by_clarity p ps ∈ p :: ps ∧
    (∀ q ∈ p :: ps, q.2 ≤ (max_by_clarity p ps).2) ∧
    ∃ l₁ l₂, p :: ps = l₁ ++ max_by_clarity p ps :: l₂ ∧
      ∀ q ∈ l₁, q.2 < (max_by_clarity p ps).2 := by
  induction ps generalizing p with
  | nil =>
    refine ⟨List.mem_singleton.mpr rfl, ?_, [], [], rfl, by simp⟩
    intro q hq
    rw [List.mem_singleton.mp hq]
    exact le_rfl
  | cons q qs ih =>
    have hstep : max_by_clarity p (q :: qs) = max_by_clarity (if p.2 < q.2 then q else p) qs :=
      rfl
    by_cases hpq : p.2 < q.2
    · rw [hstep, if_pos hpq]
      obtain ⟨hm, hub, l₁, l₂, hsplit, hlt⟩ := ih q
      refine ⟨List.mem_cons_of_mem p hm, ?_, p :: l₁, l₂, by rw [List.cons_append, hsplit], ?_⟩
      · intro r hr
        rcases List.mem_cons.mp hr with hr | hr
        · rw [hr]
          exact le_of_lt (lt_of_lt_of_le hpq (hub q (List.mem_cons_self q qs)))
        · exact hub r hr
      · intro r hr
        rcases List.mem_cons.mp hr with hr | hr
        · rw [hr]
          exact lt_of_lt_of_le hpq (hub q (List.mem_cons_self q qs))
        · exact hlt r hr
    · rw [hstep, if_neg hpq]
      obtain ⟨hm, hub, l₁, l₂, hsplit, hlt⟩ := ih p
      have hqle : q.2 ≤ p.2 := le_of_not_lt hpq
      refine ⟨?_, ?_, ?_⟩
      · rcases List.mem_cons.mp hm with hm | hm
        · rw [hm]
          exact List.mem_cons_self _ _
        · exact List.mem_cons_of_mem p (List.mem_cons_of_mem q hm)
      · intro r hr
        rcases List.mem_cons.mp hr with hr | hr
        · rw [hr]
          exact hub p (List.mem_cons_self p qs)
        · rcases List.mem_cons.mp hr with hr | hr
          · rw [hr]
            exact le_trans hqle (hub p (List.mem_cons_self p qs))
          · exact hub r (List.mem_cons_of_mem p hr)
      · rcases l₁ with _ | ⟨x, l₁'⟩
        · rw [List.nil_append] at hsplit
          have hp : p = max_by_clarity p qs := (List.cons_eq_cons.mp hsplit).1
          refine ⟨[], q :: qs, ?_, by simp⟩
          rw [List.nil_append, ← hp]
        · rw [List.cons_append] at hsplit
          obtain ⟨hpx, hqs⟩ := List.cons_eq_cons.mp hsplit
          refine ⟨p :: q :: l₁', l₂, ?_, ?_⟩
          · rw [List.cons_append, List.cons_append, ← hqs]
          · intro r hr
            have hpmax : p.2 < (max_by_clarity p qs).2 := by
              have := hlt x (List.mem_cons_self x l₁')
              rw [← hpx] at this
              exact this
            rcases List.mem_cons.mp hr with hr | hr
            · rw [hr]
              exact hpmax
            · rcases List.mem_cons.mp hr with hr | hr
              · rw [hr]
                exact lt_of_le_of_lt hqle hpmax
              · exact hlt r (List.mem_cons_of_mem x hr)

lemma select_fundamental_mem {α : Type*} [LinearOrderedField α]
    (p : ℕ × α) (ps : List (ℕ × α)) : select_fundamental p ps ∈ p :: ps := by
  unfold select_fundamental
  split_ifs
  · exact List.mem_cons_self _ _
  · exact (max_by_clarity_first_max p ps).1

/-- C4: the fundamental-selection heuristic takes the first (lowest-lag)
candidate whenever its value is `≥ 0.8`; otherwise it takes the candidate of
maximum value, ties between equal maxima resolving to the first occurrence in
list order. -/
theorem select_fundamental_spec {α : Type*} [LinearOrderedField α]
    (p : ℕ × α) (ps : List (ℕ × α)) :
    ((8 : α) / 10 ≤ p.2 → select_fundamental p ps = p) ∧
    (p.2 < (8 : α) / 10 →
      select_fundamental p ps ∈ p :: ps ∧
      (∀ q ∈ p :: ps, q.2 ≤ (select_fundamental p ps).2) ∧
      ∃ l₁ l₂, p :: ps = l₁ ++ select_fundamental p ps :: l₂ ∧
        ∀ q ∈ l₁, q.2 < (select_fundamental p ps).2) := by
  constructor
  · intro h
    unfold select_fundamental
    rw [if_pos h]
  · intro h
    have hsel : select_fundamental p ps = max_by_clarity p ps := by
      unfold select_fundamental
      rw [if_neg (not_le.mpr h)]
    rw [hsel]
    exact max_by_clarity_first_max p ps

theorem select_fundamental_spec_witness :
    (8 : ℚ) / 10 ≤ ((1 : ℕ), (9 : ℚ) / 10).2 ∧
      select_fundamental ((1 : ℕ), (9 : ℚ) / 10) [((2 : ℕ), (1 : ℚ))]
        = ((1 : ℕ), (9 : ℚ) / 10) :=
  ⟨by norm_num,
    (select_fundamental_spec ((1 : ℕ), (9 : ℚ) / 10) [((2 : ℕ), (1 : ℚ))]).1 (by norm_num)⟩

/-! ## The single-frame detector (`mpm_pitch_detection`) -/

/-- The detector `mpm_pitch_detection`: NSDF → peaks → best peak → parabolic refinement →
`frequency = sample_rate / refined_lag`, or `(None, None)` when no peak was
found or the refined lag is not positive.  The Python function returns a pair
whose two slots are each `None` or a float, modelled as `Option ℝ × Option ℝ`. -/
noncomputable def mpm_pitch_detection (audio_buffer : List ℝ) (sample_rate : ℝ)
    (threshold : ℝ) : Option ℝ × Option ℝ :=
  match peak_picking (normalized_square_difference audio_buffer) threshold with
  | [] => (none, none)
  | p :: ps =>
    if 0 < parabolic_interpolation (normalized_square_difference audio_buffer)
        ((select_fundamental p ps).1 : ℤ) then
      (some (sample_rate / parabolic_interpolation (normalized_square_difference audio_buffer)
          ((select_fundamental p ps).1 : ℤ)),
       some (select_fundamental p ps).2)
    else (none, none)

/-- C6: the Frame Pitch Detector returns "no estimate" when the peak list is
empty or the refined lag is `≤ 0`; otherwise it returns
`frequency = sample_rate / refined_lag` paired with the NSDF value at the
selected peak's unrefined integer index. -/
theorem mpm_pitch_detection_spec (xs : List ℝ) (sr t : ℝ) (hlen : 1 ≤ xs.length) :
    (peak_picking (normalized_square_difference xs) t = [] →
      mpm_pitch_detection xs sr t = (none, none)) ∧
    ∀ p ps, peak_picking (normalized_square_difference xs) t = p :: ps →
      (parabolic_interpolation (normalized_square_difference xs)
          ((select_fundamental p ps).1 : ℤ) ≤ 0 →
        mpm_pitch_detection xs sr t = (none, none)) ∧
      (0 < parabolic_interpolation (normalized_square_difference xs)
          ((select_fundamental p ps).1 : ℤ) →
        mpm_pitch_detection xs sr t
          = (some (sr / parabolic_interpolation (normalized_square_difference xs)
                ((select_fundamental p ps).1 : ℤ)),
             some ((normalized_square_difference xs).getD (select_fundamental p ps).1 0))) := by
  constructor
  · intro hempty
    unfold mpm_pitch_detection
    rw [hempty]
  · intro p ps hpeaks
    have hbestval : (select_fundamental p ps).2
        = (normalized_square_difference xs).getD (select_fundamental p ps).1 0 := by
      have hmem : select_fundamental p ps ∈ p :: ps := select_fundamental_mem p ps
      rw [← hpeaks] at hmem
      have := (mem_peak_picking (normalized_square_difference xs) t
        (select_fundamental p ps).1 (select_fundamental p ps).2).mp hmem
      exact this.2.2.1
    constructor
    · intro hneg
      unfold mpm_pitch_detection
      rw [hpeaks]
      exact if_neg (not_lt.mpr hneg)
    · intro hpos
      unfold mpm_pitch_detection
      rw [hpeaks]
      rw [← hbestval]
      exact if_pos hpos

theorem mpm_pitch_detection_spec_witness :
    1 ≤ List.length [(1 : ℝ)] ∧
      (peak_picking (normalized_square_difference [(1 : ℝ)]) (1 / 10) = [] →
        mpm_pitch_detection [(1 : ℝ)] 48000 (1 / 10) = (none, none)) :=
  ⟨by decide, (mpm_pitch_detection_spec [(1 : ℝ)] 48000 (1 / 10) (by decide)).1⟩

/-- C10: for a nonempty buffer the detector returns either "no estimate" in
both slots or a value in both slots, and a returned frequency is strictly
positive whenever the sample rate is positive. -/
theorem mpm_pitch_detection_shape (xs : List ℝ) (sr t : ℝ) (hlen : 1 ≤ xs.length) :
    mpm_pitch_detection xs sr t = (none, none) ∨
    ∃ f c, mpm_pitch_detection xs sr t = (some f, some c) ∧ (0 < sr → 0 < f) := by
  unfold mpm_pitch_detection
  cases hpeaks : peak_picking (normalized_square_difference xs) t with
  | nil => exact Or.inl rfl
  | cons p ps =>
    by_cases hpos : 0 < parabolic_interpolation (normalized_square_difference xs)
        ((select_fundamental p ps).1 : ℤ)
    · exact Or.inr ⟨_, _, if_pos hpos, fun hsr => div_pos hsr hpos⟩
    · exact Or.inl (if_neg hpos)

theorem mpm_pitch_detection_shape_witness :
    mpm_pitch_detection [(1 : ℝ)] 48000 (1 / 10) = (none, none) ∨
    ∃ f c, mpm_pitch_detection [(1 : ℝ)] 48000 (1 / 10) = (some f, some c) ∧
      ((0 : ℝ) < 48000 → 0 < f) :=
  mpm_pitch_detection_shape [(1 : ℝ)] 48000 (1 / 10) (by decide)

/-! ## Input validation behaviour (error-handling design) -/

lemma peak_picking_short {α : Type*} [LinearOrderedField α]
    (nsdf : List α) (t : α) (h : nsdf.length < 3) : peak_picking nsdf t = [] := by
  unfold peak_picking
  have : nsdf.length - 2 = 0 := by omega
  rw [this]
  rfl

/-- Counterexample to C9: a single-frame detection call with frame length
`1 < 3` (an invalid input per the specification) is not rejected: it returns
the ordinary "no estimate" value `(None, None)`. -/
theorem invalid_short_frame_not_rejected :
    List.length [(1 : ℝ)] < 3 ∧
      mpm_pitch_detection [(1 : ℝ)] 48000 (1 / 10) = (none, none) := by
  refine ⟨by decide, ?_⟩
  unfold mpm_pitch_detection
  rw [peak_picking_short _ _ (by simp [normalized_square_difference])]

/-- C9 (amended): no operation validates its inputs; in particular a
single-frame detection call on a frame of length `< 3` (and `≥ 1`) is
silently answered with the normal "no estimate" result instead of failing
fast. -/
theorem short_frame_silently_coerced (xs : List ℝ) (sr t : ℝ)
    (hlen : 1 ≤ xs.length) (hshort : xs.length < 3) :
    mpm_pitch_detection xs sr t = (none, none) := by
  unfold mpm_pitch_detection
  rw [peak_picking_short _ _ (by simpa [normalized_square_difference] using hshort)]

theorem short_frame_silently_coerced_witness :
    1 ≤ List.length [(1 : ℝ), 1] ∧ List.length [(1 : ℝ), 1] < 3 ∧
      mpm_pitch_detection [(1 : ℝ), 1] 44100 (1 / 10) = (none, none) :=
  ⟨by decide, by decide, short_frame_silently_coerced [(1 : ℝ), 1] 44100 (1 / 10)
    (by decide) (by decide)⟩

/-! ## The frame tracker (`detect_pitch_mpm`) -/

/-- The frame count `num_frames = 1 + (len(audio) - frame_length) // hop_length` with
Python's floor division (`Int.fdiv`). -/
def num_frames_py (len frame_length hop_length : ℕ) : ℤ :=
  1 + Int.fdiv ((len : ℤ) - (frame_length : ℤ)) (hop_length : ℤ)

/-- One loop iteration of the tracker: detect a pitch on the slice
`audio[i*hop : i*hop + frame_length]` and keep it only when the frequency
lies in `[fmin, fmax]` (otherwise the `NaN` initialisation, i.e. `none`,
survives). -/
noncomputable def frame_result (audio : List ℝ) (sample_rate : ℝ)
    (frame_length hop_length : ℕ) (threshold fmin fmax : ℝ) (i : ℕ) :
    Option ℝ × Option ℝ :=
  match mpm_pitch_detection ((audio.drop (i * hop_length)).take frame_length)
      sample_rate threshold with
  | (some f, some c) => if fmin ≤ f ∧ f ≤ fmax then (some f, some c) else (none, none)
  | _ => (none, none)

/-- The tracker `detect_pitch_mpm`: slide a `frame_length`-sample window advancing by
`hop_length`; collect per-frame pitch, clarity and timestamp
`i*hop_length / sample_rate`.  Python raises `ZeroDivisionError` on
`hop_length = 0` (the `//`) and `ValueError` from `np.full` when
`num_frames` is negative; both are modelled as `Except.error`. -/
noncomputable def detect_pitch_mpm (audio : List ℝ) (sample_rate : ℝ)
    (frame_length hop_length : ℕ) (threshold fmin fmax : ℝ) :
    Except String (List (Option ℝ) × List (Option ℝ) × List ℝ) :=
  if hop_length = 0 then Except.error "integer division or modulo by zero"
  else if num_frames_py audio.length frame_length hop_length < 0 then
    Except.error "negative dimensions are not allowed"
  else
    Except.ok
      ((List.range (num_frames_py audio.length frame_length hop_length).toNat).map
          (fun i => (frame_result audio sample_rate frame_length hop_length
            threshold fmin fmax i).1),
       (List.range (num_frames_py audio.length frame_length hop_length).toNat).map
          (fun i => (frame_result audio sample_rate frame_length hop_length
            threshold fmin fmax i).2),
       (List.range (num_frames_py audio.length frame_length hop_length).toNat).map
          (fun i => ((i * hop_length : ℕ) : ℝ) / sample_rate))

/-- Counterexample to C7: on a signal shorter than `frame_length - hop_length`
the frame count `1 + ⌊(len - L)/H⌋` is negative and the tracker raises
(`np.full` refuses negative dimensions) instead of returning an empty series. -/
theorem tracker_short_signal_errors :
    num_frames_py (List.length ([] : List ℝ)) 2048 512 < 0 ∧
      detect_pitch_mpm [] 48000 2048 512 (1 / 10) 50 2000
        = Except.error "negative dimensions are not allowed" := by
  have hneg : num_frames_py (List.length ([] : List ℝ)) 2048 512 < 0 := by decide
  refine ⟨hneg, ?_⟩
  unfold detect_pitch_mpm
  rw [if_neg (by decide : ¬((512 : ℕ) = 0)), if_pos hneg]

/-- C7 (amended): with a positive hop the tracker returns exactly
`1 + ⌊(len(signal) - L)/H⌋` frames — with timestamp `k·H / sample_rate` at
index `k` — whenever that count is `≥ 0` (an empty series when it is `0`),
and raises an error when the count is negative; a signal shorter than `L`
always yields count `≤ 0`, hence an empty series or the error, never frames. -/
theorem detect_pitch_mpm_frames (audio : List ℝ) (sr : ℝ) (L H : ℕ)
    (t fmin fmax : ℝ) (hH : 0 < H) :
    (0 ≤ num_frames_py audio.length L H →
      ∃ ps cs ts, detect_pitch_mpm audio sr L H t fmin fmax = Except.ok (ps, cs, ts) ∧
        ps.length = (num_frames_py audio.length L H).toNat ∧
        cs.length = (num_frames_py audio.length L H).toNat ∧
        ts.length = (num_frames_py audio.length L H).toNat ∧
        ∀ k, k < (num_frames_py audio.length L H).toNat →
          ts.getD k 0 = ((k * H : ℕ) : ℝ) / sr) ∧
    (num_frames_py audio.length L H < 0 →
      detect_pitch_mpm audio sr L H t fmin fmax
        = Except.error "negative dimensions are not allowed") ∧
    (audio.length < L → num_frames_py audio.length L H ≤ 0) := by
  have hH0 : H ≠ 0 := Nat.pos_iff_ne_zero.mp hH
  refine ⟨?_, ?_, ?_⟩
  · intro hnn
    refine ⟨(List.range (num_frames_py audio.length L H).toNat).map
        (fun i => (frame_result audio sr L H t fmin fmax i).1),
      (List.range (num_frames_py audio.length L H).toNat).map
        (fun i => (frame_result audio sr L H t fmin fmax i).2),
      (List.range (num_frames_py audio.length L H).toNat).map
        (fun i => ((i * H : ℕ) : ℝ) / sr),
      ?_, by simp, by simp, by simp, ?_⟩
    · unfold detect_pitch_mpm
      rw [if_neg hH0, if_neg (not_lt.mpr hnn)]
    · intro k hk
      exact getD_map_range _ _ k 0 hk
  · intro hneg
    unfold detect_pitch_mpm
    rw [if_neg hH0, if_pos hneg]
  · intro hshort
    unfold num_frames_py
    have hnum : (audio.length : ℤ) - (L : ℤ) < 0 := by
      omega
    have hfd : Int.fdiv ((audio.length : ℤ) - (L : ℤ)) (H : ℤ)
        = ((audio.length : ℤ) - (L : ℤ)) / (H : ℤ) :=
      Int.fdiv_eq_ediv _ (by exact_mod_cast Nat.zero_le H)
    have hdivneg : ((audio.length : ℤ) - (L : ℤ)) / (H : ℤ) < 0 :=
      Int.ediv_neg' hnum (by exact_mod_cast hH)
    omega

theorem detect_pitch_mpm_frames_witness :
    (0 : ℕ) < 512 ∧
      (0 ≤ num_frames_py (List.length ([(1 : ℝ)])) 1 512 →
        ∃ ps cs ts, detect_pitch_mpm [(1 : ℝ)] 48000 1 512 (1 / 10) 50 2000
            = Except.ok (ps, cs, ts) ∧
          ps.length = (num_frames_py (List.length ([(1 : ℝ)])) 1 512).toNat ∧
          cs.length = (num_frames_py (List.length ([(1 : ℝ)])) 1 512).toNat ∧
          ts.length = (num_frames_py (List.length ([(1 : ℝ)])) 1 512).toNat ∧
          ∀ k, k < (num_frames_py (List.length ([(1 : ℝ)])) 1 512).toNat →
            ts.getD k 0 = ((k * 512 : ℕ) : ℝ) / 48000) :=
  ⟨by decide, (detect_pitch_mpm_frames [(1 : ℝ)] 48000 1 512 (1 / 10) 50 2000 (by decide)).1⟩

/-! ## The dominant-pitch aggregator (`get_dominant_pitch_mpm`) -/

/-- The model of `np.median`: middle element of the sorted data for odd length, mean of
the two middle elements for even length. -/
noncomputable def np_median (l : List ℝ) : ℝ :=
  if l.length % 2 = 1 then (l.insertionSort (· ≤ ·)).getD (l.length / 2) 0
  else ((l.insertionSort (· ≤ ·)).getD (l.length / 2 - 1) 0
      + (l.insertionSort (· ≤ ·)).getD (l.length / 2) 0) / 2

/-- The valid subset (`valid_mask` with clarities): entries whose pitch is
present (not `NaN`) and whose clarity is present and `≥ min_clarity`, kept
as (pitch, clarity) pairs in frame order. -/
noncomputable def valid_pairs (pitches clarities : List (Option ℝ))
    (min_clarity : ℝ) : List (ℝ × ℝ) :=
  (pitches.zip clarities).filterMap fun pc =>
    match pc with
    | (some p, some c) => if min_clarity ≤ c then some (p, c) else none
    | _ => none

/-- The effect of `np.argsort(valid_pitches)` applied to both arrays: the valid pairs
sorted by frequency ascending. -/
noncomputable def sorted_valid_pairs (pitches clarities : List (Option ℝ))
    (min_clarity : ℝ) : List (ℝ × ℝ) :=
  (valid_pairs pitches clarities min_clarity).insertionSort fun a b => a.1 ≤ b.1

/-- The model of `np.cumsum(sorted_weights)`: running totals of the clarity weights. -/
noncomputable def cum_weights (ws : List ℝ) : List ℝ :=
  (List.range ws.length).map fun i => (ws.take (i + 1)).sum

/-- The model of `np.searchsorted(cumsum, cumsum[-1] / 2)` with left insertion point: the
first index whose cumulative weight reaches half the total. -/
noncomputable def weighted_median_idx (ws : List ℝ) : ℕ :=
  (cum_weights ws).findIdx fun s => decide ((cum_weights ws).getLastD 0 / 2 ≤ s)

/-- The aggregator `get_dominant_pitch_mpm`: drop `NaN` (and low-clarity) entries; return
`None` when nothing is left; otherwise the clarity-weighted median frequency
(or the plain median when no clarities were supplied).  The out-of-range
index access `sorted_pitches[median_idx]` cannot occur for the nonnegative
clarity weights of a pitch time series, so the `Option`-returning lookup is
exact on all reachable inputs. -/
noncomputable def get_dominant_pitch_mpm (pitches : List (Option ℝ))
    (clarities : Option (List (Option ℝ))) (min_clarity : ℝ) : Option ℝ :=
  match clarities with
  | some cs =>
    if valid_pairs pitches cs min_clarity = [] then none
    else
      ((sorted_valid_pairs pitches cs min_clarity).map Prod.fst).get?
        (weighted_median_idx ((sorted_valid_pairs pitches cs min_clarity).map Prod.snd))
  | none =>
    if pitches.filterMap id = [] then none
    else some (np_median (pitches.filterMap id))

lemma get_dominant_pitch_some_def (pitches cs : List (Option ℝ)) (mc : ℝ) :
    get_dominant_pitch_mpm pitches (some cs) mc
      = if valid_pairs pitches cs mc = [] then none
        else ((sorted_valid_pairs pitches cs mc).map Prod.fst).get?
          (weighted_median_idx ((sorted_valid_pairs pitches cs mc).map Prod.snd)) := rfl

lemma get_dominant_pitch_none_def (pitches : List (Option ℝ)) (mc : ℝ) :
    get_dominant_pitch_mpm pitches none mc
      = if pitches.filterMap id = [] then none
        else some (np_median (pitches.filterMap id)) := rfl

lemma mem_valid_pairs {pitches cs : List (Option ℝ)} {mc : ℝ} {p c : ℝ}
    (h : (p, c) ∈ valid_pairs pitches cs mc) :
    some p ∈ pitches ∧ some c ∈ cs ∧ mc ≤ c := by
  unfold valid_pairs at h
  rw [List.mem_filterMap] at h
  obtain ⟨⟨op, oc⟩, hmem, hf⟩ := h
  rcases op with _ | p' <;> rcases oc with _ | c'
  · exact absurd hf (by simp)
  · exact absurd hf (by simp)
  · exact absurd hf (by simp)
  · have hf' : (if mc ≤ c' then some ((p', c') : ℝ × ℝ) else none) = some (p, c) := hf
    rw [Option.ite_none_right_eq_some] at hf'
    obtain ⟨hmc, hpair⟩ := hf'
    cases hpair
    exact ⟨(List.of_mem_zip hmem).1, (List.of_mem_zip hmem).2, hmc⟩

lemma valid_pairs_snd_nonneg {pitches cs : List (Option ℝ)} {mc : ℝ}
    (hc : ∀ oc ∈ cs, ∀ x, oc = some x → 0 ≤ x) :
    ∀ q ∈ valid_pairs pitches cs mc, 0 ≤ q.2 := by
  rintro ⟨p, c⟩ hq
  obtain ⟨-, hcs, -⟩ := mem_valid_pairs hq
  exact hc (some c) hcs c rfl

lemma cum_weights_length (ws : List ℝ) : (cum_weights ws).length = ws.length := by
  simp [cum_weights]

lemma cum_weights_getD (ws : List ℝ) (i : ℕ) (h : i < ws.length) :
    (cum_weights ws).getD i 0 = (ws.take (i + 1)).sum :=
  getD_map_range _ _ i 0 h

lemma cum_weights_getLastD (ws : List ℝ) (h : ws ≠ []) :
    (cum_weights ws).getLastD 0 = ws.sum := by
  have hlen : 0 < ws.length := List.length_pos.mpr h
  unfold cum_weights
  rw [List.getLastD_eq_getLast?, List.getLast?_eq_getElem?]
  rw [List.length_map, List.length_range, List.getElem?_map,
    List.getElem?_range (by omega : ws.length - 1 < ws.length)]
  show (ws.take (ws.length - 1 + 1)).sum = ws.sum
  rw [(by omega : ws.length - 1 + 1 = ws.length), List.take_length]

/-- C8: the Dominant Pitch Aggregator is "undetermined" exactly when the
valid subset is empty; with clarities supplied and a nonempty valid subset it
returns the frequency at the first position — after sorting the valid pairs
by frequency ascending — whose cumulative clarity weight reaches half the
total weight, and that value is one of the input frequencies. -/
theorem get_dominant_pitch_spec (pitches cs : List (Option ℝ)) (mc : ℝ)
    (hlen : pitches.length = cs.length)
    (hc : ∀ oc ∈ cs, ∀ x, oc = some x → 0 ≤ x) :
    (get_dominant_pitch_mpm pitches (some cs) mc = none ↔
      valid_pairs pitches cs mc = []) ∧
    (get_dominant_pitch_mpm pitches none mc = none ↔ pitches.filterMap id = []) ∧
    (valid_pairs pitches cs mc ≠ [] →
      List.Sorted (fun a b : ℝ × ℝ => a.1 ≤ b.1) (sorted_valid_pairs pitches cs mc) ∧
      (sorted_valid_pairs pitches cs mc).Perm (valid_pairs pitches cs mc) ∧
      ∃ idx, idx < (sorted_valid_pairs pitches cs mc).length ∧
        get_dominant_pitch_mpm pitches (some cs) mc
          = some ((sorted_valid_pairs pitches cs mc).getD idx (0, 0)).1 ∧
        ((sorted_valid_pairs pitches cs mc).map Prod.snd).sum / 2
          ≤ ((((sorted_valid_pairs pitches cs mc).map Prod.snd)).take (idx + 1)).sum ∧
        (∀ j < idx,
          ((((sorted_valid_pairs pitches cs mc).map Prod.snd)).take (j + 1)).sum
            < ((sorted_valid_pairs pitches cs mc).map Prod.snd).sum / 2) ∧
        ((sorted_valid_pairs pitches cs mc).getD idx (0, 0)).1
          ∈ (valid_pairs pitches cs mc).map Prod.fst ∧
        some ((sorted_valid_pairs pitches cs mc).getD idx (0, 0)).1 ∈ pitches) := by
  haveI : IsTotal (ℝ × ℝ) (fun a b => a.1 ≤ b.1) := ⟨fun a b => le_total a.1 b.1⟩
  haveI : IsTrans (ℝ × ℝ) (fun a b => a.1 ≤ b.1) := ⟨fun _ _ _ => le_trans⟩
  have hperm : (sorted_valid_pairs pitches cs mc).Perm (valid_pairs pitches cs mc) :=
    List.perm_insertionSort _ _
  have hmain : valid_pairs pitches cs mc ≠ [] →
      List.Sorted (fun a b : ℝ × ℝ => a.1 ≤ b.1) (sorted_valid_pairs pitches cs mc) ∧
      (sorted_valid_pairs pitches cs mc).Perm (valid_pairs pitches cs mc) ∧
      ∃ idx, idx < (sorted_valid_pairs pitches cs mc).length ∧
        get_dominant_pitch_mpm pitches (some cs) mc
          = some ((sorted_valid_pairs pitches cs mc).getD idx (0, 0)).1 ∧
        ((sorted_valid_pairs pitches cs mc).map Prod.snd).sum / 2
          ≤ ((((sorted_valid_pairs pitches cs mc).map Prod.snd)).take (idx + 1)).sum ∧
        (∀ j < idx,
          ((((sorted_valid_pairs pitches cs mc).map Prod.snd)).take (j + 1)).sum
            < ((sorted_valid_pairs pitches cs mc).map Prod.snd).sum / 2) ∧
        ((sorted_valid_pairs pitches cs mc).getD idx (0, 0)).1
          ∈ (valid_pairs pitches cs mc).map Prod.fst ∧
        some ((sorted_valid_pairs pitches cs mc).getD idx (0, 0)).1 ∈ pitches := by
    intro hne
    set S := sorted_valid_pairs pitches cs mc with hS
    set W := S.map Prod.snd with hW
    have hSne : S ≠ [] := by
      intro h
      apply hne
      rw [← List.length_eq_zero, ← hperm.length_eq, h]
      rfl
    have hWne : W ≠ [] := by
      rw [hW]
      exact fun h => hSne (List.map_eq_nil_iff.mp h)
    have hWnonneg : ∀ w ∈ W, 0 ≤ w := by
      intro w hw
      rw [hW] at hw
      obtain ⟨q, hq, rfl⟩ := List.mem_map.mp hw
      exact valid_pairs_snd_nonneg hc q (hperm.mem_iff.mp hq)
    have hWpos : 0 < W.length := List.length_pos.mpr hWne
    have hsum_nonneg : 0 ≤ W.sum := List.sum_nonneg hWnonneg
    have hlast : (cum_weights W).getLastD 0 = W.sum := cum_weights_getLastD W hWne
    -- the last cumulative weight already reaches half the total
    have hexists : ∃ x ∈ cum_weights W,
        (fun s => decide ((cum_weights W).getLastD 0 / 2 ≤ s)) x = true := by
      refine ⟨(cum_weights W).getD (W.length - 1) 0, ?_, ?_⟩
      · have hmem : (cum_weights W).getD (W.length - 1) 0
            ∈ cum_weights W := by
          rw [List.getD_eq_getElem?_getD,
            List.getElem?_eq_getElem (by rw [cum_weights_length]; omega)]
          exact List.getElem_mem _
        exact hmem
      · rw [decide_eq_true_iff, hlast, cum_weights_getD W _ (by omega),
          (by omega : W.length - 1 + 1 = W.length), List.take_length]
        linarith
    have hidx : weighted_median_idx W < (cum_weights W).length :=
      List.findIdx_lt_length_of_exists hexists
    have hidxS : weighted_median_idx W < S.length := by
      rw [cum_weights_length, hW, List.length_map] at hidx
      exact hidx
    have hcum_at : ∀ i, (hi : i < (cum_weights W).length) →
        (cum_weights W)[i] = (W.take (i + 1)).sum := by
      intro i hi
      rw [← cum_weights_getD W i (by rwa [cum_weights_length] at hi),
        List.getD_eq_getElem (cum_weights W) 0 hi]
    have hmemS : S.getD (weighted_median_idx W) (0, 0) ∈ S := by
      rw [List.getD_eq_getElem S (0, 0) hidxS]
      exact List.getElem_mem _
    refine ⟨List.sorted_insertionSort _ _, hperm, weighted_median_idx W, hidxS,
      ?_, ?_, ?_, ?_, ?_⟩
    · -- the returned value is the sorted frequency at the median index
      rw [get_dominant_pitch_some_def, if_neg hne,
        List.get?_eq_getElem?, List.getElem?_map, List.getElem?_eq_getElem hidxS,
        Option.map_some', List.getD_eq_getElem S (0, 0) hidxS]
    · -- the cumulative weight at the median index reaches half the total
      have hpred' : (cum_weights W).getLastD 0 / 2
          ≤ (cum_weights W)[weighted_median_idx W] :=
        decide_eq_true_iff.mp (@List.findIdx_getElem _
          (fun s => decide ((cum_weights W).getLastD 0 / 2 ≤ s)) (cum_weights W) hidx)
      rw [hcum_at _ hidx, hlast] at hpred'
      exact hpred'
    · -- every earlier cumulative weight is below half the total
      intro j hj
      have hjlt : j < (cum_weights W).length := lt_trans hj hidx
      have hnot : ¬((cum_weights W).getLastD 0 / 2 ≤ (cum_weights W)[j]) :=
        of_decide_eq_false (@List.not_of_lt_findIdx _
          (fun s => decide ((cum_weights W).getLastD 0 / 2 ≤ s)) (cum_weights W) j hj)
      rw [hcum_at _ hjlt, hlast] at hnot
      exact lt_of_not_le hnot
    · -- the selected pair is one of the valid pairs
      exact List.mem_map_of_mem Prod.fst (hperm.mem_iff.mp hmemS)
    · -- and its frequency is one of the input frequencies
      have hmemP := hperm.mem_iff.mp hmemS
      rcases hq : S.getD (weighted_median_idx W) (0, 0) with ⟨p, c⟩
      rw [hq] at hmemP
      exact (mem_valid_pairs hmemP).1
  refine ⟨?_, ?_, hmain⟩
  · constructor
    · intro hnone
      by_contra hne
      obtain ⟨-, -, idx, -, heq, -⟩ := hmain hne
      rw [hnone] at heq
      exact Option.noConfusion heq
    · intro hempty
      rw [get_dominant_pitch_some_def, if_pos hempty]
  · rw [get_dominant_pitch_none_def]
    constructor
    · intro hnone
      by_contra hne
      rw [if_neg hne] at hnone
      exact Option.noConfusion hnone
    · intro hempty
      rw [if_pos hempty]

theorem get_dominant_pitch_spec_witness :
    (get_dominant_pitch_mpm [some (100 : ℝ)] (some [some 1]) (1 / 2) = none ↔
      valid_pairs [some (100 : ℝ)] [some 1] (1 / 2) = []) :=
  (get_dominant_pitch_spec [some (100 : ℝ)] [some 1] (1 / 2) rfl (by simp)).1

end MPM
